import Mathlib

/-!
Verification development for a console Texas Hold'em program (single C++
translation unit).  The definitions below are a shallow embedding of the
program's core: the card model, the hand evaluator (`HandEvaluator`
namespace in the source), the per-action betting-state transitions of
`TexasHoldem::handlePlayerAction`, the street initialisation of
`TexasHoldem::bettingRound`, the tie branch of `TexasHoldem::showdown`,
and `Deck::dealCard` / `Player::placeBet` / `Player::winChips` /
`Player::resetHand`.

Conventions of the embedding:
* `std::vector` becomes `List`; an out-of-bounds `operator[]` read
  (undefined behaviour in the source) is modeled by `Option`: a function
  that can perform such a read returns `none` in exactly those cases.
* C++ `int` becomes `Int` (chip amounts in the program stay far from the
  32-bit range, so wrap-around is never relevant); `size_t` arithmetic is
  modeled with explicit wrap-around modulo 2^64 where the source can
  underflow (the loop bound of `HandEvaluator::isStraight`).
* `std::sort` on integers is modeled by `List.insertionSort (· ≤ ·)`:
  for a total order on values both produce the unique sorted permutation.
* `std::map` iteration is ascending-key iteration, i.e. iteration over
  the sorted list of distinct keys.
-/

/-- Suit enumeration of the source (`enum class Suit`). -/
inductive Suit
  | hearts
  | diamonds
  | clubs
  | spades
deriving DecidableEq

/-- Rank enumeration of the source (`enum class Rank`), TWO = 2 .. ACE = 14.
The source names the Jack `JOKER`. -/
inductive Rank
  | two
  | three
  | four
  | five
  | six
  | seven
  | eight
  | nine
  | ten
  | joker
  | queen
  | king
  | ace
deriving DecidableEq

/-- Numeric value of a rank, as `static_cast<int>(rank)` in the source. -/
def Rank.val : Rank → Int
  | Rank.two => 2
  | Rank.three => 3
  | Rank.four => 4
  | Rank.five => 5
  | Rank.six => 6
  | Rank.seven => 7
  | Rank.eight => 8
  | Rank.nine => 9
  | Rank.ten => 10
  | Rank.joker => 11
  | Rank.queen => 12
  | Rank.king => 13
  | Rank.ace => 14

/-- A playing card (`class Card`): a suit and a rank. -/
structure Card where
  suit : Suit
  rank : Rank
deriving DecidableEq

/-- `Card::getValue`: the integer value of the card's rank. -/
def Card.getValue (c : Card) : Int :=
  c.rank.val

/-- The nine hand categories (`enum class HandRank`), weakest first. -/
inductive HandRank
  | highCard
  | onePair
  | twoPair
  | threeOfAKind
  | straight
  | flush
  | fullHouse
  | fourOfAKind
  | straightFlush
deriving DecidableEq

/-- Numeric value of a hand category, as `static_cast<int>(HandRank)`:
HIGH_CARD = 0 .. STRAIGHT_FLUSH = 8. -/
def HandRank.value : HandRank → Int
  | HandRank.highCard => 0
  | HandRank.onePair => 1
  | HandRank.twoPair => 2
  | HandRank.threeOfAKind => 3
  | HandRank.straight => 4
  | HandRank.flush => 5
  | HandRank.fullHouse => 6
  | HandRank.fourOfAKind => 7
  | HandRank.straightFlush => 8

/-- Remove adjacent duplicates, as `std::unique` followed by `erase` does
on the sorted rank vector in `HandEvaluator::isStraight`. -/
def uniqAdj : List Int → List Int
  | [] => []
  | [x] => [x]
  | x :: y :: ys => if x = y then uniqAdj (y :: ys) else x :: uniqAdj (y :: ys)

/-- The rank values of a card list (`card.getValue()` over the vector). -/
def rankValues (cards : List Card) : List Int :=
  cards.map Card.getValue

/-- The rank values sorted ascending (`std::sort` in `isStraight`;
also the ascending key order of the `std::map` in `getRankCounts`). -/
def sortedRanks (cards : List Card) : List Int :=
  List.insertionSort (fun a b => a ≤ b) (rankValues cards)

/-- The distinct rank values in ascending order (sort + unique). -/
def distinctRanks (cards : List Card) : List Int :=
  uniqAdj (sortedRanks cards)

/-- Inner loop of `isStraight` (`for j in 0..3`), started at window
position `i` with 4 consecutive checks remaining: compares
`ranks[idx + 1] != ranks[idx] + 1` for `idx = i, i+1, i+2, i+3`.
Reading either index out of bounds is undefined behaviour in the source
and yields `none` here. -/
def innerCheck : List Int → Nat → Nat → Option Bool
  | _, _, 0 => some true
  | ranks, idx, Nat.succ k =>
      match ranks.get? idx, ranks.get? (idx + 1) with
      | some a, some b =>
          if b ≠ a + 1 then some false else innerCheck ranks (idx + 1) k
      | _, _ => none

/-- Outer loop of `isStraight` (`for i = 0; i <= ranks.size() - 5; i++`),
with the number of remaining iterations passed as fuel.  Exhausted fuel is
a normal loop exit (no 5-window of consecutive ranks found). -/
def straightScan : List Int → Nat → Nat → Option Bool
  | _, _, 0 => some false
  | ranks, i, Nat.succ fuel =>
      match innerCheck ranks i 4 with
      | some true => some true
      | some false => straightScan ranks (i + 1) fuel
      | none => none

/-- The loop bound `ranks.size() - 5` computed in `size_t` arithmetic:
when fewer than 5 distinct ranks remain after deduplication the
subtraction wraps around modulo 2^64. -/
def straightLoopBound (n : Nat) : Nat :=
  (n + 2 ^ 64 - 5) % 2 ^ 64

/-- `HandEvaluator::isStraight`.  Returns `none` when the source performs
an out-of-bounds read (which happens exactly when the card list has at
least 5 cards but fewer than 5 distinct ranks).  The wheel special case
A-2-3-4-5 is checked after the consecutive-window scan. -/
def isStraight (cards : List Card) : Option Bool :=
  if cards.length < 5 then some false
  else
    let ranks := distinctRanks cards
    match straightScan ranks 0 (straightLoopBound ranks.length + 1) with
    | some true => some true
    | some false =>
        some (ranks.contains 14 && ranks.contains 2 && ranks.contains 3 &&
              ranks.contains 4 && ranks.contains 5)
    | none => none

/-- Number of cards of suit `s` (the `std::map<Suit,int>` counter of
`isFlush`). -/
def suitCountVal (cards : List Card) (s : Suit) : Nat :=
  (cards.filter (fun c => c.suit = s)).length

/-- `HandEvaluator::isFlush`: at least 5 cards of one suit.  The source's
early-exit counting loop returns true iff some suit's total count is at
least 5. -/
def isFlush (cards : List Card) : Bool :=
  if cards.length < 5 then false
  else if 5 ≤ suitCountVal cards Suit.hearts ∨ 5 ≤ suitCountVal cards Suit.diamonds ∨
          5 ≤ suitCountVal cards Suit.clubs ∨ 5 ≤ suitCountVal cards Suit.spades then true
  else false

/-- Number of occurrences of rank value `v` in a value list (the
`std::map<int,int>` counter of `getRankCounts`). -/
def countVal (l : List Int) (v : Int) : Nat :=
  (l.filter (fun x => x = v)).length

/-- The `(count, value)` pairs of `getRankCounts`, built by iterating the
count map in ascending key order. -/
def rankPairs (cards : List Card) : List (Nat × Int) :=
  (distinctRanks cards).map (fun v => (countVal (rankValues cards) v, v))

/-- Insert one `(count, value)` pair into a list sorted by count
descending, then value descending (the comparator of the `std::sort` call
in `getRankCounts`).  All pairs carry distinct values, so the sorted
result is unique. -/
def insertPair (x : Nat × Int) : List (Nat × Int) → List (Nat × Int)
  | [] => [x]
  | y :: ys =>
      if y.1 < x.1 ∨ (x.1 = y.1 ∧ y.2 < x.2) then x :: y :: ys
      else y :: insertPair x ys

/-- Sort the `(count, value)` pairs by the comparator above. -/
def sortPairs (ps : List (Nat × Int)) : List (Nat × Int) :=
  ps.foldr insertPair []

/-- Expand sorted `(count, value)` pairs by repeating each value `count`
times (the result-building loop of `getRankCounts`). -/
def repeatPairs : List (Nat × Int) → List Int
  | [] => []
  | p :: ps => List.replicate p.1 p.2 ++ repeatPairs ps

/-- `HandEvaluator::getRankCounts`: rank values ordered by multiplicity
descending then value descending, each repeated by its multiplicity. -/
def getRankCounts (cards : List Card) : List Int :=
  repeatPairs (sortPairs (rankPairs cards))

/-- Guarded indexing `rankCounts[i]`; every use in the source is guarded
by a `size()` check, so the default value is never observable. -/
def rcGet (rc : List Int) (i : Nat) : Int :=
  rc.getD i 0

/-- The classification cascade of `evaluateHand` (checked top strength
first; `a && b || c && d` in the source parses as `(a && b) || (c && d)`). -/
def classify (straight flush : Bool) (rc : List Int) : HandRank :=
  if straight = true ∧ flush = true then HandRank.straightFlush
  else if 4 ≤ rc.length ∧ rcGet rc 0 = rcGet rc 3 then HandRank.fourOfAKind
  else if 5 ≤ rc.length ∧
        ((rcGet rc 0 = rcGet rc 2 ∧ rcGet rc 3 = rcGet rc 4) ∨
         (rcGet rc 0 = rcGet rc 1 ∧ rcGet rc 2 = rcGet rc 4)) then HandRank.fullHouse
  else if flush = true then HandRank.flush
  else if straight = true then HandRank.straight
  else if 3 ≤ rc.length ∧ rcGet rc 0 = rcGet rc 2 then HandRank.threeOfAKind
  else if 4 ≤ rc.length ∧ (rcGet rc 0 = rcGet rc 1 ∧ rcGet rc 2 = rcGet rc 3) then
    HandRank.twoPair
  else if 2 ≤ rc.length ∧ rcGet rc 0 = rcGet rc 1 then HandRank.onePair
  else HandRank.highCard

/-- `HandEvaluator::evaluateHand`: fewer than 5 cards degenerates to a
high card with an empty key; otherwise classify using the straight/flush
predicates and the rank-count profile.  Returns `none` exactly when
`isStraight` performs an out-of-bounds read. -/
def evaluateHand (cards : List Card) : Option (HandRank × List Int) :=
  if cards.length < 5 then some (HandRank.highCard, [])
  else
    match isStraight cards with
    | none => none
    | some straight =>
        let flush := isFlush cards
        let rc := getRankCounts cards
        some (classify straight flush rc, rc)

/-- The positional tie-break walk of `compareHands` (lines 515-519):
first index where the two key sequences differ decides, by value
difference; exhausting the shorter key with no difference yields 0. -/
def walkKeys : List Int → List Int → Int
  | x :: xs, y :: ys => if x ≠ y then x - y else walkKeys xs ys
  | _, _ => 0

/-- The comparison core of `HandEvaluator::compareHands` applied to two
already-computed evaluations: category value difference if the categories
differ, otherwise the positional key walk. -/
def compareEvals (e1 e2 : HandRank × List Int) : Int :=
  if HandRank.value e1.1 ≠ HandRank.value e2.1 then
    HandRank.value e1.1 - HandRank.value e2.1
  else walkKeys e1.2 e2.2

/-- `HandEvaluator::compareHands` on the two players' hole cards plus the
shared community cards (`getCombinedCards` appends the community cards to
the hand).  `none` when either evaluation faults. -/
def compareHands (hand1 hand2 community : List Card) : Option Int :=
  match evaluateHand (hand1 ++ community), evaluateHand (hand2 ++ community) with
  | some e1, some e2 => some (compareEvals e1 e2)
  | _, _ => none

/-- `Deck::dealCard` on the deck contents (vector front at list head,
deck top = `cards.back()` = last element): an empty deck prints an error
and returns a default 2-of-hearts card, leaving the deck unchanged. -/
def dealCard (cards : List Card) : Card × List Card :=
  match cards.getLast? with
  | none => (⟨Suit.hearts, Rank.two⟩, cards)
  | some c => (c, cards.dropLast)

/-- The per-player state touched by the betting engine (`class Player`
fields `chips`, `currentBet`, `hasFolded`, `isInGame`). -/
structure PlayerState where
  chips : Int
  currentBet : Int
  hasFolded : Bool
  isInGame : Bool
deriving DecidableEq

/-- `Player::placeBet`: when `amount <= chips`, debit the stack, add to
the current bet, and report success; otherwise change nothing and report
failure. -/
def placeBet (p : PlayerState) (amount : Int) : PlayerState × Bool :=
  if amount ≤ p.chips then
    (⟨p.chips - amount, p.currentBet + amount, p.hasFolded, p.isInGame⟩, true)
  else (p, false)

/-- `Player::winChips`: credit the stack. -/
def winChips (p : PlayerState) (amount : Int) : PlayerState :=
  ⟨p.chips + amount, p.currentBet, p.hasFolded, p.isInGame⟩

/-- `Player::resetHand` restricted to the modeled fields: clears the
current bet and the folded flag, keeps the chip stack. -/
def resetHand (p : PlayerState) : PlayerState :=
  ⟨p.chips, 0, false, p.isInGame⟩

/-- `player.setHasFolded(true)`. -/
def setFolded (p : PlayerState) : PlayerState :=
  ⟨p.chips, p.currentBet, true, p.isInGame⟩

/-- The table state read and written by one action of
`handlePlayerAction`: the acting player, the pot, the street's
current-highest bet (`currentBetAmount`, passed as `maxBet`), and
`lastAggressorIndex`. -/
structure ActionState where
  player : PlayerState
  pot : Int
  maxBet : Int
  lastAggressorIndex : Int
deriving DecidableEq

/-- `int toCall = maxBet - player.getCurrentBet()`. -/
def toCallAmount (s : ActionState) : Int :=
  s.maxBet - s.player.currentBet

/-- The call branch (case 2) of `handlePlayerAction`: try to bet the owed
amount; on success add it to the pot, on failure auto-fold. -/
def handleCall (s : ActionState) : ActionState :=
  let toCall := toCallAmount s
  let r := placeBet s.player toCall
  if r.2 then ⟨r.1, s.pot + toCall, s.maxBet, s.lastAggressorIndex⟩
  else ⟨setFolded s.player, s.pot, s.maxBet, s.lastAggressorIndex⟩

/-- `int minRaise = (toCall > 0 ? toCall : 0) + bigBlindAmount`. -/
def minRaise (toCall bigBlind : Int) : Int :=
  (if 0 < toCall then toCall else 0) + bigBlind

/-- The raise branch (case 3) of `handlePlayerAction`, given an accepted
raise amount (the console input loop admits exactly the amounts with
`minRaise ≤ raiseAmount ≤ chips`): try to bet `toCall + raiseAmount`; on
success update pot, highest bet and last aggressor, on failure auto-fold. -/
def handleRaise (s : ActionState) (playerIndex raiseAmount : Int) : ActionState :=
  let toCall := toCallAmount s
  let r := placeBet s.player (toCall + raiseAmount)
  if r.2 then ⟨r.1, s.pot + (toCall + raiseAmount), r.1.currentBet, playerIndex⟩
  else ⟨setFolded s.player, s.pot, s.maxBet, s.lastAggressorIndex⟩

/-- The chip-stack operations a player undergoes during rounds: bets
(blinds, calls, raises all go through `placeBet`), pot winnings, and the
round-start reset. -/
inductive ChipOp
  | bet (amount : Int)
  | win (amount : Int)
  | reset

/-- Apply one chip operation to a player. -/
def applyOp (p : PlayerState) : ChipOp → PlayerState
  | ChipOp.bet a => (placeBet p a).1
  | ChipOp.win a => winChips p a
  | ChipOp.reset => resetHand p

/-- Apply a sequence of chip operations left to right. -/
def applyOps (p : PlayerState) (ops : List ChipOp) : PlayerState :=
  ops.foldl applyOp p

/-- A contesting player: in the game and not folded
(`getIsInGame() && !getHasFolded()`). -/
def contesting (p : PlayerState) : Bool :=
  p.isInGame && !p.hasFolded

/-- One step of the initialisation loop of `bettingRound` (lines 686-690):
take the maximum of the accumulator and each contesting player's carried
current bet. -/
def betStep (acc : Int) (p : PlayerState) : Int :=
  if contesting p = true then max acc p.currentBet else acc

/-- The value `currentBetAmount` holds when a street's betting loop
starts: 0 maximised over all contesting players' current bets. -/
def initialBetAmount (players : List PlayerState) : Int :=
  players.foldl betStep 0

/-- The tie branch of `TexasHoldem::showdown` (lines 790-803), acting on
the winners' chip stacks in iteration order: every winner is credited
`pot / n`, then the first winner is additionally credited `pot % n` when
that remainder is positive. -/
def distributeTie (pot : Nat) (ws : List Nat) : List Nat :=
  let n := ws.length
  let splitPot := pot / n
  let credited := ws.map (fun c => c + splitPot)
  let remainder := pot % n
  if 0 < remainder then
    match credited with
    | [] => []
    | c :: cs => (c + remainder) :: cs
  else credited

/-- The 5-card input with two distinct ranks that drives `isStraight`
out of bounds: 2♠ 2♥ 2♦ 2♣ 3♠. -/
def quadsFive : List Card :=
  [⟨Suit.spades, Rank.two⟩, ⟨Suit.hearts, Rank.two⟩, ⟨Suit.diamonds, Rank.two⟩,
   ⟨Suit.clubs, Rank.two⟩, ⟨Suit.spades, Rank.three⟩]

/-- The spec's full-house test input: 2♠ 2♥ 2♦ 3♠ 3♥ 3♦ 4♣. -/
def fullHouseSeven : List Card :=
  [⟨Suit.spades, Rank.two⟩, ⟨Suit.hearts, Rank.two⟩, ⟨Suit.diamonds, Rank.two⟩,
   ⟨Suit.spades, Rank.three⟩, ⟨Suit.hearts, Rank.three⟩, ⟨Suit.diamonds, Rank.three⟩,
   ⟨Suit.clubs, Rank.four⟩]

/-- Hole cards A♠ 2♥ of the wheel player. -/
def wheelHole : List Card :=
  [⟨Suit.spades, Rank.ace⟩, ⟨Suit.hearts, Rank.two⟩]

/-- Hole cards 2♠ 6♠ of the player holding the higher 2-3-4-5-6 straight. -/
def sixHighHole : List Card :=
  [⟨Suit.spades, Rank.two⟩, ⟨Suit.spades, Rank.six⟩]

/-- Community cards 3♦ 4♣ 5♠ 9♦ 10♦ shared by both players. -/
def wheelCommunity : List Card :=
  [⟨Suit.diamonds, Rank.three⟩, ⟨Suit.clubs, Rank.four⟩, ⟨Suit.spades, Rank.five⟩,
   ⟨Suit.diamonds, Rank.nine⟩, ⟨Suit.diamonds, Rank.ten⟩]

/-- The wheel straight card multiset of the spec: A♠ 2♥ 3♦ 4♣ 5♠ 9♦ 10♦. -/
def wheelSeven : List Card :=
  wheelHole ++ wheelCommunity

/-- A state about to act facing a 50-chip call with a 200-chip stack and
no chips yet committed this round (pot 0, highest bet 50, no aggressor). -/
def raiseBugState : ActionState :=
  ⟨⟨200, 0, false, true⟩, 0, 50, -1⟩

/-- A state facing a 50-chip call with a 500-chip stack, where a raise by
200 is affordable in full. -/
def raiseOkState : ActionState :=
  ⟨⟨500, 0, false, true⟩, 0, 50, -1⟩

/-- A state facing a 50-chip call with only 30 chips left. -/
def callFoldState : ActionState :=
  ⟨⟨30, 0, false, true⟩, 100, 50, -1⟩

/-- Players entering a post-flop street: the two contesting players carry
a 100-chip bet from the previous street, a folded player carries 50. -/
def streetPlayers : List PlayerState :=
  [⟨900, 100, false, true⟩, ⟨0, 100, false, true⟩, ⟨950, 50, true, true⟩]

/-! ### Lemmas about the tie-break key walk of `compareHands` -/

theorem walkKeys_nil_left (k : List Int) : walkKeys [] k = 0 := by
  cases k <;> rfl

theorem walkKeys_nil_right (k : List Int) : walkKeys k [] = 0 := by
  cases k <;> rfl

theorem walkKeys_cons (x y : Int) (xs ys : List Int) :
    walkKeys (x :: xs) (y :: ys) = if x ≠ y then x - y else walkKeys xs ys := rfl

theorem walkKeys_self : ∀ k : List Int, walkKeys k k = 0 := by
  intro k
  induction k with
  | nil => rfl
  | cons x xs ih => simp [walkKeys_cons, ih]

theorem walkKeys_antisymm : ∀ a b : List Int, walkKeys a b = - walkKeys b a := by
  intro a
  induction a with
  | nil => intro b; rw [walkKeys_nil_left, walkKeys_nil_right]; simp
  | cons x xs ih =>
    intro b
    cases b with
    | nil => rw [walkKeys_nil_left, walkKeys_nil_right]; simp
    | cons y ys =>
      rw [walkKeys_cons, walkKeys_cons]
      by_cases h : x = y
      · subst h; simp [ih ys]
      · have h2 : y ≠ x := fun hyx => h hyx.symm
        simp only [h, h2, ne_eq, not_false_eq_true, if_true]
        omega

theorem walkKeys_trans_pos : ∀ a b c : List Int, a.length = b.length →
    b.length = c.length → 0 < walkKeys a b → 0 < walkKeys b c → 0 < walkKeys a c := by
  intro a
  induction a with
  | nil =>
    intro b c _ _ h1 _
    rw [walkKeys_nil_left] at h1
    omega
  | cons x xs ih =>
    intro b c hab hbc h1 h2
    cases b with
    | nil => simp at hab
    | cons y ys =>
      cases c with
      | nil => simp at hbc
      | cons z zs =>
        rw [walkKeys_cons] at h1 h2
        rw [walkKeys_cons]
        by_cases hxy : x = y
        · subst hxy
          simp at h1
          by_cases hxz : x = z
          · subst hxz
            simp at h2
            simp
            exact ih ys zs (by simpa using hab) (by simpa using hbc) h1 h2
          · simpa [hxz] using h2
        · simp [hxy] at h1
          by_cases hyz : y = z
          · subst hyz
            simpa [hxy] using h1
          · simp [hyz] at h2
            have hxz : x ≠ z := by omega
            simp [hxz]
            omega

theorem walkKeys_first_diff : ∀ (pre : List Int) (x y : Int) (k1 k2 : List Int),
    x ≠ y → walkKeys (pre ++ x :: k1) (pre ++ y :: k2) = x - y := by
  intro pre
  induction pre with
  | nil => intro x y k1 k2 h; simp [walkKeys_cons, h]
  | cons p ps ih =>
    intro x y k1 k2 h
    simpa [List.cons_append, walkKeys_cons] using ih x y k1 k2 h

theorem walkKeys_eq_zero_iff : ∀ k1 k2 : List Int, k1.length = k2.length →
    (walkKeys k1 k2 = 0 ↔ k1 = k2) := by
  intro k1
  induction k1 with
  | nil =>
    intro k2 h
    cases k2 with
    | nil => simp [walkKeys_nil_left]
    | cons y ys => simp at h
  | cons x xs ih =>
    intro k2 h
    cases k2 with
    | nil => simp at h
    | cons y ys =>
      rw [walkKeys_cons]
      by_cases hxy : x = y
      · subst hxy
        simp [ih ys (by simpa using h)]
      · have hsub : x - y ≠ 0 := sub_ne_zero_of_ne hxy
        simp [hxy, hsub]

/-! ### Lemmas about the comparison core -/

theorem compareEvals_self (e : HandRank × List Int) : compareEvals e e = 0 := by
  simp [compareEvals, walkKeys_self]

theorem compareEvals_antisymm (a b : HandRank × List Int) :
    compareEvals a b = - compareEvals b a := by
  by_cases h : HandRank.value a.1 = HandRank.value b.1
  · unfold compareEvals
    rw [if_neg (fun hC => hC h), if_neg (fun hC => hC h.symm)]
    exact walkKeys_antisymm a.2 b.2
  · unfold compareEvals
    rw [if_pos h, if_pos (fun hh => h hh.symm)]
    omega

theorem compareEvals_trans_pos (a b c : HandRank × List Int)
    (hab : a.2.length = b.2.length) (hbc : b.2.length = c.2.length)
    (h1 : 0 < compareEvals a b) (h2 : 0 < compareEvals b c) :
    0 < compareEvals a c := by
  unfold compareEvals at h1 h2 ⊢
  by_cases hvab : HandRank.value a.1 = HandRank.value b.1
  · rw [if_neg (by simpa using hvab)] at h1
    by_cases hvbc : HandRank.value b.1 = HandRank.value c.1
    · rw [if_neg (by simpa using hvbc)] at h2
      rw [if_neg (by simp [hvab, hvbc])]
      exact walkKeys_trans_pos a.2 b.2 c.2 hab hbc h1 h2
    · rw [if_pos (by simpa using hvbc)] at h2
      have hvac : HandRank.value a.1 ≠ HandRank.value c.1 := by omega
      rw [if_pos (by simpa using hvac)]
      omega
  · rw [if_pos (by simpa using hvab)] at h1
    by_cases hvbc : HandRank.value b.1 = HandRank.value c.1
    · have hvac : HandRank.value a.1 ≠ HandRank.value c.1 := by omega
      rw [if_pos (by simpa using hvac)]
      omega
    · rw [if_pos (by simpa using hvbc)] at h2
      have hvac : HandRank.value a.1 ≠ HandRank.value c.1 := by omega
      rw [if_pos (by simpa using hvac)]
      omega

theorem compareEvals_dominance (r1 r2 : HandRank) (k1 k2 : List Int)
    (h : HandRank.value r2 < HandRank.value r1) :
    0 < compareEvals (r1, k1) (r2, k2) := by
  have hne : HandRank.value r1 ≠ HandRank.value r2 := by omega
  unfold compareEvals
  rw [if_pos hne]
  show 0 < HandRank.value r1 - HandRank.value r2
  omega

theorem compareEvals_first_diff (r : HandRank) (pre k1 k2 : List Int) (x y : Int)
    (h : x ≠ y) :
    compareEvals (r, pre ++ x :: k1) (r, pre ++ y :: k2) = x - y := by
  unfold compareEvals
  rw [if_neg (by simp)]
  exact walkKeys_first_diff pre x y k1 k2 h

theorem compareEvals_eq_zero_iff (r : HandRank) (k1 k2 : List Int)
    (h : k1.length = k2.length) :
    (compareEvals (r, k1) (r, k2) = 0 ↔ k1 = k2) := by
  unfold compareEvals
  rw [if_neg (by simp)]
  exact walkKeys_eq_zero_iff k1 k2 h

/-! ### The rank-count key has one entry per card -/

theorem uniqAdj_mem (v : Int) : ∀ l : List Int, v ∈ uniqAdj l ↔ v ∈ l := by
  intro l
  induction l with
  | nil => simp [uniqAdj]
  | cons x xs ih =>
    cases xs with
    | nil => simp [uniqAdj]
    | cons y ys =>
      by_cases h : x = y
      · subst h
        rw [show uniqAdj (x :: x :: ys) = uniqAdj (x :: ys) from by simp [uniqAdj]]
        rw [ih]
        simp [List.mem_cons]
      · rw [show uniqAdj (x :: y :: ys) = x :: uniqAdj (y :: ys) from by simp [uniqAdj, h]]
        simp [List.mem_cons, ih]

theorem uniqAdj_pairwise_lt : ∀ l : List Int, l.Pairwise (· ≤ ·) →
    (uniqAdj l).Pairwise (· < ·) := by
  intro l
  induction l with
  | nil => intro _; simp [uniqAdj]
  | cons x xs ih =>
    intro hp
    rw [List.pairwise_cons] at hp
    cases xs with
    | nil => simp [uniqAdj]
    | cons y ys =>
      by_cases h : x = y
      · rw [show uniqAdj (x :: y :: ys) = uniqAdj (y :: ys) from by simp [uniqAdj, h]]
        exact ih hp.2
      · rw [show uniqAdj (x :: y :: ys) = x :: uniqAdj (y :: ys) from by simp [uniqAdj, h]]
        refine List.Pairwise.cons ?_ (ih hp.2)
        intro b hb
        have hbmem : b ∈ y :: ys := (uniqAdj_mem b (y :: ys)).mp hb
        have hxy : x < y := lt_of_le_of_ne (hp.1 y (List.mem_cons_self _ _)) h
        rcases List.mem_cons.mp hbmem with hb1 | hb2
        · rw [hb1]; exact hxy
        · have hyb : y ≤ b := (List.pairwise_cons.mp hp.2).1 b hb2
          exact lt_of_lt_of_le hxy hyb

theorem distinctRanks_nodup (cards : List Card) : (distinctRanks cards).Nodup := by
  have hs : (sortedRanks cards).Pairwise (· ≤ ·) :=
    List.sorted_insertionSort (fun a b => a ≤ b) (rankValues cards)
  exact (uniqAdj_pairwise_lt (sortedRanks cards) hs).imp (fun hlt => ne_of_lt hlt)

theorem distinctRanks_mem (cards : List Card) (v : Int) :
    v ∈ distinctRanks cards ↔ v ∈ rankValues cards := by
  rw [distinctRanks, uniqAdj_mem, sortedRanks]
  exact List.mem_insertionSort (fun a b => a ≤ b)

theorem length_filter_partition (l : List Int) (v : Int) :
    countVal l v + (l.filter (fun x => ¬ x = v)).length = l.length := by
  induction l with
  | nil => rfl
  | cons a as ih =>
    by_cases h : a = v <;>
      simp [countVal, List.filter_cons, h] at ih ⊢ <;> omega

theorem countVal_filter_ne (l : List Int) (v u : Int) (h : u ≠ v) :
    countVal (l.filter (fun x => ¬ x = v)) u = countVal l u := by
  unfold countVal
  rw [List.filter_filter]
  congr 1
  apply List.filter_congr
  intro x _
  by_cases hxu : x = u
  · subst hxu
    simp [h]
  · simp [hxu]

theorem sum_counts : ∀ d l : List Int, d.Nodup → (∀ v, v ∈ d ↔ v ∈ l) →
    (d.map (fun v => countVal l v)).sum = l.length := by
  intro d
  induction d with
  | nil =>
    intro l _ hm
    cases l with
    | nil => rfl
    | cons a as => exact absurd ((hm a).mpr (List.mem_cons_self _ _)) (List.not_mem_nil a)
  | cons v d' ih =>
    intro l hnd hm
    rw [List.map_cons, List.sum_cons]
    have hnd' := List.nodup_cons.mp hnd
    have hcongr : d'.map (fun u => countVal l u)
        = d'.map (fun u => countVal (l.filter (fun x => ¬ x = v)) u) := by
      apply List.map_congr_left
      intro u hu
      have huv : u ≠ v := fun he => hnd'.1 (he ▸ hu)
      exact (countVal_filter_ne l v u huv).symm
    have hmem : ∀ u, u ∈ d' ↔ u ∈ l.filter (fun x => ¬ x = v) := by
      intro u
      constructor
      · intro hu
        have huv : u ≠ v := fun he => hnd'.1 (he ▸ hu)
        have : u ∈ l := (hm u).mp (List.mem_cons_of_mem _ hu)
        simp [List.mem_filter, this, huv]
      · intro hu
        rw [List.mem_filter] at hu
        have huv : u ≠ v := by simpa using hu.2
        have : u ∈ v :: d' := (hm u).mpr hu.1
        rcases List.mem_cons.mp this with h1 | h2
        · exact absurd h1 huv
        · exact h2
    rw [hcongr, ih (l.filter (fun x => ¬ x = v)) hnd'.2 hmem]
    exact length_filter_partition l v

theorem repeatPairs_length : ∀ ps : List (Nat × Int),
    (repeatPairs ps).length = (ps.map Prod.fst).sum := by
  intro ps
  induction ps with
  | nil => rfl
  | cons p ps ih => simp [repeatPairs, ih]

theorem insertPair_fst_sum (x : Nat × Int) : ∀ l : List (Nat × Int),
    ((insertPair x l).map Prod.fst).sum = x.1 + (l.map Prod.fst).sum := by
  intro l
  induction l with
  | nil => rfl
  | cons y ys ih =>
    unfold insertPair
    by_cases h : y.1 < x.1 ∨ (x.1 = y.1 ∧ y.2 < x.2)
    · rw [if_pos h]; simp
    · rw [if_neg h]; simp [ih]; omega

theorem sortPairs_fst_sum : ∀ ps : List (Nat × Int),
    ((sortPairs ps).map Prod.fst).sum = (ps.map Prod.fst).sum := by
  intro ps
  induction ps with
  | nil => rfl
  | cons p ps ih =>
    rw [show sortPairs (p :: ps) = insertPair p (sortPairs ps) from rfl]
    rw [insertPair_fst_sum, ih]
    simp

theorem rankPairs_fst_sum (cards : List Card) :
    ((rankPairs cards).map Prod.fst).sum
      = ((distinctRanks cards).map (fun v => countVal (rankValues cards) v)).sum := by
  rw [rankPairs, List.map_map]
  rfl

theorem getRankCounts_length (cards : List Card) :
    (getRankCounts cards).length = cards.length := by
  rw [getRankCounts, repeatPairs_length, sortPairs_fst_sum, rankPairs_fst_sum,
    sum_counts (distinctRanks cards) (rankValues cards) (distinctRanks_nodup cards)
      (fun v => distinctRanks_mem cards v)]
  simp [rankValues]

theorem evaluateHand_key_length (cards : List Card) (r : HandRank) (k : List Int)
    (h : evaluateHand cards = some (r, k)) :
    k.length = cards.length ∨ (k = [] ∧ cards.length < 5) := by
  unfold evaluateHand at h
  by_cases h5 : cards.length < 5
  · rw [if_pos h5] at h
    have hk := (Option.some.inj h).symm
    exact Or.inr ⟨congrArg Prod.snd hk, h5⟩
  · rw [if_neg h5] at h
    cases his : isStraight cards with
    | none => rw [his] at h; exact absurd h (by simp)
    | some st =>
      rw [his] at h
      have hp := Option.some.inj h
      injection hp with hr hk
      rw [← hk]
      exact Or.inl (getRankCounts_length cards)

/-! ### Claim theorems -/

/-- Claim C1, refuted (code bug): `evaluateHand` is not total.  On the
5-card input 2♠ 2♥ 2♦ 2♣ 3♠ — which has at least 5 cards but only two
distinct ranks — the loop bound `ranks.size() - 5` of `isStraight`
underflows in `size_t` arithmetic and the loop reads the deduplicated
rank vector out of bounds (undefined behaviour), modeled here by the
evaluator returning `none` instead of a classification. -/
theorem evaluateHand_faults_without_five_distinct_ranks :
    evaluateHand quadsFive = none := by decide

/-- Claim C5, refuted (code bug): on the spec's full-house test input
2♠ 2♥ 2♦ 3♠ 3♥ 3♦ 4♣ the evaluator never reaches the full-house check:
the input has only three distinct ranks, so `isStraight` reads out of
bounds (undefined behaviour) exactly as in the quads case, modeled by
`none` instead of the required FULL_HOUSE classification. -/
theorem evaluateHand_faults_on_spec_full_house_input :
    evaluateHand fullHouseSeven = none := by decide

/-- Claim C7, refuted (code bug): dealing from an empty deck is not fatal
to the operation.  `Deck::dealCard` returns an ordinary default card
(2 of hearts) and leaves the deck unchanged, so the caller continues as
if a card had been dealt and the strict-decrease invariant of the deck
size fails. -/
theorem dealCard_empty_returns_default_card :
    dealCard [] = (⟨Suit.hearts, Rank.two⟩, ([] : List Card)) ∧
    ¬ (dealCard ([] : List Card)).2.length < ([] : List Card).length := by
  exact ⟨by decide, by decide⟩

/-- Claim C2 counterexample: the wheel input does classify as STRAIGHT,
but comparing it against a hand whose best straight is the higher
2-3-4-5-6 (hole 2♠ 6♠ on the shared board 3♦ 4♣ 5♠ 9♦ 10♦) yields the
positive result 4, not a negative one: the comparison does not rank the
wheel strictly lower. -/
theorem wheel_not_ranked_below_higher_straight :
    evaluateHand wheelSeven = some (HandRank.straight, [14, 10, 9, 5, 4, 3, 2]) ∧
    compareHands wheelHole sixHighHole wheelCommunity = some 4 ∧
    ¬ ∃ r : Int, compareHands wheelHole sixHighHole wheelCommunity = some r ∧ r < 0 := by
  refine ⟨by decide, by decide, ?_⟩
  rintro ⟨r, hr, hneg⟩
  have h4 : compareHands wheelHole sixHighHole wheelCommunity = some 4 := by decide
  rw [h4] at hr
  have := Option.some.inj hr
  omega

/-- Claim C2 (amended): the wheel multiset A♠ 2♥ 3♦ 4♣ 5♠ 9♦ 10♦
classifies as STRAIGHT, and the comparison against a hand holding the
higher 2-3-4-5-6 straight on the same board ranks the wheel strictly
HIGHER: the tie-break key is the full descending rank multiset of all
seven cards, so the wheel's key leads with the Ace (14) against 10. -/
theorem wheel_straight_ranks_higher :
    evaluateHand wheelSeven = some (HandRank.straight, [14, 10, 9, 5, 4, 3, 2]) ∧
    evaluateHand (sixHighHole ++ wheelCommunity)
      = some (HandRank.straight, [10, 9, 6, 5, 4, 3, 2]) ∧
    compareHands wheelHole sixHighHole wheelCommunity = some 4 ∧ (0 : Int) < 4 := by
  exact ⟨by decide, by decide, by decide, by decide⟩

/-- Claim C4: the comparison of two evaluations is a three-valued
ordering (its sign) in which the category value dominates; it is
reflexive-equal and antisymmetric; for equal key lengths it is transitive
and, within one category, zero exactly on equal keys; within one category
the first position at which the keys differ decides by value difference;
and every evaluation produced from at least 5 cards carries a key with
one entry per input card (smaller inputs carry the empty key), so
evaluations of same-size inputs have equal key lengths. -/
theorem compareHands_order_contract :
    (∀ e : HandRank × List Int, compareEvals e e = 0) ∧
    (∀ a b : HandRank × List Int, compareEvals a b = - compareEvals b a) ∧
    (∀ a b c : HandRank × List Int, a.2.length = b.2.length → b.2.length = c.2.length →
      0 < compareEvals a b → 0 < compareEvals b c → 0 < compareEvals a c) ∧
    (∀ (r1 r2 : HandRank) (k1 k2 : List Int), HandRank.value r2 < HandRank.value r1 →
      0 < compareEvals (r1, k1) (r2, k2)) ∧
    (∀ (r : HandRank) (pre k1 k2 : List Int) (x y : Int), x ≠ y →
      compareEvals (r, pre ++ x :: k1) (r, pre ++ y :: k2) = x - y) ∧
    (∀ (r : HandRank) (k1 k2 : List Int), k1.length = k2.length →
      (compareEvals (r, k1) (r, k2) = 0 ↔ k1 = k2)) ∧
    (∀ (cards : List Card) (r : HandRank) (k : List Int), evaluateHand cards = some (r, k) →
      k.length = cards.length ∨ (k = [] ∧ cards.length < 5)) :=
  ⟨compareEvals_self, compareEvals_antisymm, compareEvals_trans_pos,
   compareEvals_dominance, compareEvals_first_diff, compareEvals_eq_zero_iff,
   evaluateHand_key_length⟩

/-- Witness for C4: the hypothesis-bearing conjuncts applied at concrete
evaluations — transitivity on three straight evaluations with equal key
lengths, category dominance of flush over straight, the first-difference
rule, the equal-keys tie, and the key-length fact on the wheel input. -/
theorem compareHands_order_contract_witness :
    0 < compareEvals (HandRank.straight, [14, 10]) (HandRank.straight, [13, 9]) ∧
    0 < compareEvals (HandRank.flush, [2]) (HandRank.straight, [14]) ∧
    compareEvals (HandRank.straight, [14, 10, 2]) (HandRank.straight, [14, 9, 7]) = 10 - 9 ∧
    (compareEvals (HandRank.straight, [14, 10]) (HandRank.straight, [14, 10]) = 0 ↔
      ([14, 10] : List Int) = [14, 10]) ∧
    (([14, 10, 9, 5, 4, 3, 2] : List Int).length = wheelSeven.length ∨
      (([14, 10, 9, 5, 4, 3, 2] : List Int) = [] ∧ wheelSeven.length < 5)) := by
  refine ⟨?_, ?_, ?_, ?_, ?_⟩
  · exact compareHands_order_contract.2.2.1 (HandRank.straight, [14, 10])
      (HandRank.straight, [14, 9]) (HandRank.straight, [13, 9]) rfl rfl
      (by decide) (by decide)
  · exact compareHands_order_contract.2.2.2.1 HandRank.flush HandRank.straight
      [2] [14] (by decide)
  · have h := compareHands_order_contract.2.2.2.2.1 HandRank.straight [14] [2] [7]
      10 9 (by decide)
    simpa using h
  · exact compareHands_order_contract.2.2.2.2.2.1 HandRank.straight [14, 10] [14, 10] rfl
  · exact compareHands_order_contract.2.2.2.2.2.2 wheelSeven HandRank.straight
      [14, 10, 9, 5, 4, 3, 2] (by decide)

/-- Claim C6 counterexample: facing a 50-chip call with a 200-chip stack
and big blind 100, the raise amount 200 satisfies the claimed bounds
(minimum raise 150 ≤ 200 ≤ stack 200), yet the engine does not execute
the raise: `placeBet(toCall + raiseAmount)` asks for 250 chips, fails,
and the player is auto-folded with pot, highest bet and stack unchanged. -/
theorem raise_within_claimed_bounds_folds :
    minRaise (toCallAmount raiseBugState) 100 ≤ 200 ∧
    (200 : Int) ≤ raiseBugState.player.chips ∧
    (handleRaise raiseBugState 0 200).player.hasFolded = true ∧
    (handleRaise raiseBugState 0 200).pot = raiseBugState.pot ∧
    (handleRaise raiseBugState 0 200).maxBet = raiseBugState.maxBet ∧
    (handleRaise raiseBugState 0 200).player.chips = raiseBugState.player.chips := by
  decide

/-- Claim C6 (amended): an accepted raise (raise amount within the
validated bounds) succeeds precisely when additionally the full new
contribution — the amount owed to call plus the raise amount — fits in
the stack; then that contribution is debited from the stack and credited
to the player's bet and the pot, the street's highest bet rises by the
raise amount to the player's new total bet, and the player is recorded as
the last aggressor. -/
theorem raise_success_updates_state (s : ActionState)
    (bigBlind playerIndex raiseAmount : Int)
    (_hmin : minRaise (toCallAmount s) bigBlind ≤ raiseAmount)
    (_hstack : raiseAmount ≤ s.player.chips)
    (htotal : toCallAmount s + raiseAmount ≤ s.player.chips) :
    (handleRaise s playerIndex raiseAmount).player.chips
        = s.player.chips - (toCallAmount s + raiseAmount) ∧
    (handleRaise s playerIndex raiseAmount).player.currentBet
        = s.player.currentBet + (toCallAmount s + raiseAmount) ∧
    (handleRaise s playerIndex raiseAmount).player.hasFolded = s.player.hasFolded ∧
    (handleRaise s playerIndex raiseAmount).pot = s.pot + (toCallAmount s + raiseAmount) ∧
    (handleRaise s playerIndex raiseAmount).maxBet = s.maxBet + raiseAmount ∧
    (handleRaise s playerIndex raiseAmount).lastAggressorIndex = playerIndex := by
  unfold handleRaise placeBet
  simp only [htotal, if_true, if_pos, true_and, and_true]
  unfold toCallAmount
  omega

/-- Witness for the amended C6 theorem at a concrete state: 500-chip
stack, 50 owed, big blind 100, raise amount 200. -/
theorem raise_success_updates_state_witness :
    (handleRaise raiseOkState 2 200).player.chips
        = raiseOkState.player.chips - (toCallAmount raiseOkState + 200) ∧
    (handleRaise raiseOkState 2 200).player.currentBet
        = raiseOkState.player.currentBet + (toCallAmount raiseOkState + 200) ∧
    (handleRaise raiseOkState 2 200).player.hasFolded = raiseOkState.player.hasFolded ∧
    (handleRaise raiseOkState 2 200).pot = raiseOkState.pot + (toCallAmount raiseOkState + 200) ∧
    (handleRaise raiseOkState 2 200).maxBet = raiseOkState.maxBet + 200 ∧
    (handleRaise raiseOkState 2 200).lastAggressorIndex = 2 :=
  raise_success_updates_state raiseOkState 100 2 200 (by decide) (by decide) (by decide)

/-- Claim C8: a call attempt with a stack smaller than the owed amount is
degraded to a fold: the folded flag is set while pot, stack and current
bet are unchanged (no error is raised — `handleCall` is total). -/
theorem call_with_insufficient_chips_folds (s : ActionState)
    (h : s.player.chips < toCallAmount s) :
    (handleCall s).player.hasFolded = true ∧
    (handleCall s).pot = s.pot ∧
    (handleCall s).player.chips = s.player.chips ∧
    (handleCall s).player.currentBet = s.player.currentBet := by
  have hn : ¬ toCallAmount s ≤ s.player.chips := not_le.mpr h
  unfold handleCall placeBet
  simp [hn, setFolded]

/-- Witness for C8 at a concrete state: 30 chips facing a 50-chip call. -/
theorem call_with_insufficient_chips_folds_witness :
    (handleCall callFoldState).player.hasFolded = true ∧
    (handleCall callFoldState).pot = callFoldState.pot ∧
    (handleCall callFoldState).player.chips = callFoldState.player.chips ∧
    (handleCall callFoldState).player.currentBet = callFoldState.player.currentBet :=
  call_with_insufficient_chips_folds callFoldState (by decide)

theorem placeBet_chips_nonneg (p : PlayerState) (a : Int) (h : 0 ≤ p.chips) :
    0 ≤ (placeBet p a).1.chips := by
  unfold placeBet
  by_cases hc : a ≤ p.chips
  · rw [if_pos hc]
    show 0 ≤ p.chips - a
    omega
  · rw [if_neg hc]
    exact h

/-- Claim C9: across any sequence of round operations — bets (blinds,
calls, raises all route through `placeBet`), winnings with non-negative
amounts, and resets — a non-negative chip stack stays non-negative,
because the only debit, `placeBet`, is guarded by `amount <= chips` and
removes at most the current stack. -/
theorem chip_stack_never_negative :
    (∀ (p : PlayerState) (ops : List ChipOp), 0 ≤ p.chips →
      (∀ a : Int, ChipOp.win a ∈ ops → 0 ≤ a) → 0 ≤ (applyOps p ops).chips) ∧
    (∀ (p : PlayerState) (a : Int), 0 ≤ p.chips →
      p.chips - (placeBet p a).1.chips ≤ p.chips) := by
  constructor
  · intro p ops
    induction ops generalizing p with
    | nil => intro h _; simpa [applyOps] using h
    | cons op rest ih =>
      intro h hw
      show 0 ≤ (applyOps (applyOp p op) rest).chips
      apply ih
      · cases op with
        | bet a => exact placeBet_chips_nonneg p a h
        | win a =>
          have ha := hw a (List.mem_cons_self _ _)
          show 0 ≤ p.chips + a
          omega
        | reset => exact h
      · intro a ha
        exact hw a (List.mem_cons_of_mem _ ha)
  · intro p a h
    unfold placeBet
    by_cases hc : a ≤ p.chips
    · rw [if_pos hc]
      show p.chips - (p.chips - a) ≤ p.chips
      omega
    · rw [if_neg hc]
      show p.chips - p.chips ≤ p.chips
      omega

/-- Witness for C9: a concrete operation sequence — a 50-chip bet, a
30-chip win, the round reset, then a 200-chip bet that exceeds the stack
and is refused — leaves the stack non-negative. -/
theorem chip_stack_never_negative_witness :
    0 ≤ (applyOps ⟨100, 0, false, true⟩
      [ChipOp.bet 50, ChipOp.win 30, ChipOp.reset, ChipOp.bet 200]).chips :=
  chip_stack_never_negative.1 ⟨100, 0, false, true⟩
    [ChipOp.bet 50, ChipOp.win 30, ChipOp.reset, ChipOp.bet 200]
    (by decide)
    (by
      intro a ha
      simp only [List.mem_cons, List.not_mem_nil, or_false] at ha
      rcases ha with h1 | h2 | h3 | h4
      · exact absurd h1 (by simp)
      · have : a = 30 := by injection h2
        omega
      · exact absurd h3 (by simp)
      · exact absurd h4 (by simp))

theorem betStep_foldl (M : Int) : ∀ (l : List PlayerState) (acc : Int),
    (∀ p, p ∈ l → contesting p = true → p.currentBet = M) →
    ((∃ p, p ∈ l ∧ contesting p = true) → acc ≤ M → l.foldl betStep acc = M) ∧
    ((∀ p, p ∈ l → contesting p = false) → l.foldl betStep acc = acc) := by
  intro l
  induction l with
  | nil =>
    intro acc _
    constructor
    · rintro ⟨p, hp, _⟩ _
      exact absurd hp (List.not_mem_nil p)
    · intro _
      rfl
  | cons q l' ih =>
    intro acc hall
    have hall' : ∀ p, p ∈ l' → contesting p = true → p.currentBet = M :=
      fun p hp => hall p (List.mem_cons_of_mem q hp)
    constructor
    · rintro ⟨p, hp, hcp⟩ hacc
      rw [List.foldl_cons]
      cases hq : contesting q with
      | true =>
        have hqM : q.currentBet = M := hall q (List.mem_cons_self q l') hq
        have hstep : betStep acc q = M := by
          unfold betStep
          rw [if_pos hq, hqM]
          exact max_eq_right hacc
        rw [hstep]
        by_cases hex : ∃ p, p ∈ l' ∧ contesting p = true
        · exact (ih M hall').1 hex (le_refl M)
        · have hforall : ∀ p, p ∈ l' → contesting p = false := by
            intro r hr
            cases hcr : contesting r with
            | false => rfl
            | true => exact absurd ⟨r, hr, hcr⟩ hex
          exact (ih M hall').2 hforall
      | false =>
        have hstep : betStep acc q = acc := by
          unfold betStep
          rw [if_neg (by simp [hq])]
        rw [hstep]
        have hp' : p ∈ l' := by
          rcases List.mem_cons.mp hp with h1 | h2
          · rw [h1] at hcp
            rw [hq] at hcp
            exact absurd hcp (by simp)
          · exact h2
        exact (ih acc hall').1 ⟨p, hp', hcp⟩ hacc
    · intro hnone
      rw [List.foldl_cons]
      have hstep : betStep acc q = acc := by
        unfold betStep
        rw [if_neg (by simp [hnone q (List.mem_cons_self q l')])]
      rw [hstep]
      exact (ih acc hall').2 (fun p hp => hnone p (List.mem_cons_of_mem q hp))

/-- Claim C10: a player's current bet accumulates through `placeBet`
(a failed bet changes nothing), is untouched by winning chips, and is
cleared only by the round-start reset; consequently, when a street after
the first begins with every contesting player carrying the same bet M
from the earlier streets (the termination state of the previous street's
betting loop), `bettingRound` initialises its current-highest bet to
exactly M — a level every contesting player already matches. -/
theorem current_bet_carries_across_streets :
    (∀ (p : PlayerState) (a : Int), a ≤ p.chips →
      (placeBet p a).1.currentBet = p.currentBet + a) ∧
    (∀ (p : PlayerState) (a : Int), ¬ a ≤ p.chips → (placeBet p a).1 = p) ∧
    (∀ (p : PlayerState) (a : Int), (winChips p a).currentBet = p.currentBet) ∧
    (∀ p : PlayerState, (resetHand p).currentBet = 0) ∧
    (∀ (players : List PlayerState) (M : Int), 0 ≤ M →
      (∀ p, p ∈ players → contesting p = true → p.currentBet = M) →
      (∃ p, p ∈ players ∧ contesting p = true) →
      initialBetAmount players = M ∧
      (∀ p, p ∈ players → contesting p = true → p.currentBet = initialBetAmount players)) := by
  refine ⟨?_, ?_, ?_, ?_, ?_⟩
  · intro p a ha
    unfold placeBet
    rw [if_pos ha]
  · intro p a ha
    unfold placeBet
    rw [if_neg ha]
  · intro p a
    rfl
  · intro p
    rfl
  · intro players M hM hall hex
    have h1 : initialBetAmount players = M := (betStep_foldl M players 0 hall).1 hex hM
    exact ⟨h1, fun p hp hc => by rw [h1]; exact hall p hp hc⟩

/-- Witness for C10 at the concrete street entry `streetPlayers`: both
contesting players carry bet 100, so the street's initial highest bet is
100. -/
theorem current_bet_carries_across_streets_witness :
    initialBetAmount streetPlayers = 100 ∧
    (∀ p, p ∈ streetPlayers → contesting p = true →
      p.currentBet = initialBetAmount streetPlayers) :=
  current_bet_carries_across_streets.2.2.2.2 streetPlayers 100 (by decide) (by decide)
    ⟨⟨900, 100, false, true⟩, by decide, by decide⟩

theorem map_add_getD (ws : List Nat) (s : Nat) : ∀ i, i < ws.length →
    (ws.map (fun c => c + s)).getD i 0 = ws.getD i 0 + s := by
  induction ws with
  | nil => intro i hi; simp at hi
  | cons a as ih =>
    intro i hi
    cases i with
    | zero => rfl
    | succ j =>
      simp only [List.map_cons, List.getD_cons_succ]
      exact ih j (by simpa using hi)

theorem map_add_sum (ws : List Nat) (s : Nat) :
    (ws.map (fun c => c + s)).sum = ws.sum + ws.length * s := by
  induction ws with
  | nil => simp
  | cons a as ih =>
    simp only [List.map_cons, List.sum_cons, List.length_cons, ih]
    ring

/-- Claim C3: when the showdown winners list has n ≥ 2 entries and the
pot is P, the tie branch credits every winner exactly P / n, credits the
whole remainder P % n additionally to the first winner in iteration
order, and distributes exactly P in total. -/
theorem tie_pot_split_exact (pot : Nat) (ws : List Nat) (h : 2 ≤ ws.length) :
    (distributeTie pot ws).length = ws.length ∧
    (∀ i, i < ws.length →
      (distributeTie pot ws).getD i 0 =
        ws.getD i 0 + pot / ws.length + (if i = 0 then pot % ws.length else 0)) ∧
    (distributeTie pot ws).sum = ws.sum + pot := by
  cases ws with
  | nil => simp at h
  | cons a as =>
    have hsum : ((a :: as).map (fun c => c + pot / (a :: as).length)).sum
        = (a :: as).sum + (a :: as).length * (pot / (a :: as).length) :=
      map_add_sum (a :: as) (pot / (a :: as).length)
    have hdm : (a :: as).length * (pot / (a :: as).length) + pot % (a :: as).length = pot :=
      Nat.div_add_mod pot (a :: as).length
    unfold distributeTie
    by_cases hr : 0 < pot % (a :: as).length
    · rw [if_pos hr]
      simp only [List.map_cons]
      refine ⟨by simp, ?_, ?_⟩
      · intro i hi
        cases i with
        | zero =>
          simp
        | succ j =>
          simp only [List.getD_cons_succ, if_neg (Nat.succ_ne_zero j)]
          have := map_add_getD as (pot / (a :: as).length) j (by simpa using hi)
          simpa using this
      · simp only [List.map_cons, List.sum_cons] at hsum ⊢
        linarith [hsum, hdm]
    · rw [if_neg hr]
      have hr0 : pot % (a :: as).length = 0 := by omega
      simp only [List.map_cons]
      refine ⟨by simp, ?_, ?_⟩
      · intro i hi
        cases i with
        | zero =>
          simp
          simpa using hr0
        | succ j =>
          simp only [List.getD_cons_succ, if_neg (Nat.succ_ne_zero j)]
          have := map_add_getD as (pot / (a :: as).length) j (by simpa using hi)
          simpa using this
      · simp only [List.map_cons, List.sum_cons] at hsum ⊢
        linarith [hsum, hdm, hr0]

/-- Witness for C3: a pot of 100 split among 3 tied winners yields
credits 34, 33, 33 (the remainder chip goes to the first winner) and
distributes exactly 100. -/
theorem tie_pot_split_exact_witness :
    (distributeTie 100 [0, 0, 0]).length = ([0, 0, 0] : List Nat).length ∧
    (∀ i, i < ([0, 0, 0] : List Nat).length →
      (distributeTie 100 [0, 0, 0]).getD i 0 =
        ([0, 0, 0] : List Nat).getD i 0 + 100 / ([0, 0, 0] : List Nat).length +
          (if i = 0 then 100 % ([0, 0, 0] : List Nat).length else 0)) ∧
    (distributeTie 100 [0, 0, 0]).sum = ([0, 0, 0] : List Nat).sum + 100 :=
  tie_pot_split_exact 100 [0, 0, 0] (by decide)
